import Mathlib

/-!
Shallow embedding of the manifest-resolution and artifact-extraction engine of
`portable-msvc.py`, together with proofs of the behavioural properties stated
in the specification.  Machine byte strings are modelled as `List Nat`,
Python `str` values as Lean `String`, and the ambient SHA-256 implementation
is a parameter (`hexdigest`), since only the comparison logic lives in the
script.  All definitions are executable and mirror the Python source line by
line; fallible operations return `Option` or `Except`, and the two sources of
process death (uncaught exceptions and `exit`) are explicit error values.
-/

/-- Lowercasing of one character; Python `str.lower()` restricted to the ASCII
letters, which is all the manifest ids contain. -/
def charLower (c : Char) : Char :=
  if 'A' ≤ c ∧ c ≤ 'Z' then Char.ofNat (c.toNat + 32) else c

/-- Python `s.lower()`. -/
def pyLower (s : String) : String := ⟨s.data.map charLower⟩

/-- Lexicographic comparison of character lists by code point. -/
def charListLt : List Char → List Char → Bool
  | [], [] => false
  | [], _ :: _ => true
  | _ :: _, [] => false
  | a :: as, b :: bs => if a < b then true else if b < a then false else charListLt as bs

/-- Python string comparison `a < b` (lexicographic by code point). -/
def pyStrLt (a b : String) : Bool := charListLt a.data b.data

/-- Python `s.startswith(pre)`. -/
def startswith (pre s : String) : Bool := decide (s.data.take pre.data.length = pre.data)

/-- One downloadable blob of a package: `{url, sha256, fileName}`. -/
structure Payload where
  url : String
  sha256 : String
  fileName : String
deriving DecidableEq

/-- A dependency-map value as read by `get_package` (lines 288-292): either a
bare version string (the dependency id is the map key), an object carrying an
`id` field, or an object without one (skipped by the walk). -/
inductive Dep where
  | verStr (version : String)
  | objWithId (id : String)
  | objNoId
deriving DecidableEq

/-- One package record of the VS manifest, restricted to the fields the script
reads.  `payloads = none` models a record without a `"payloads"` key and
`language = none` a record without a `"language"` key. -/
structure Pkg where
  id : String
  language : Option String
  type : String
  payloads : Option (List Payload)
  dependencies : Option (List (String × Dep))
deriving DecidableEq

/-- `packages.setdefault(key, []); packages[key].append(p)`: append `p` under
`key`, creating the key at the end of the dictionary on first sight. -/
def addRecord (idx : List (String × List Pkg)) (key : String) (p : Pkg) :
    List (String × List Pkg) :=
  match idx with
  | [] => [(key, [p])]
  | (k, vs) :: rest =>
    if k = key then (k, vs ++ [p]) :: rest else (k, vs) :: addRecord rest key p

/-- The loop building the `packages` dictionary from the flat manifest list
(lines 122-132): an insertion-ordered association list keyed by lowercased id. -/
def buildIndex (records : List Pkg) : List (String × List Pkg) :=
  records.foldl (fun idx p => addRecord idx (pyLower p.id) p) []

/-- `packages[k]`; `none` models a `KeyError`. -/
def lookupIndex (idx : List (String × List Pkg)) (k : String) : Option (List Pkg) :=
  match idx with
  | [] => none
  | (k', vs) :: rest => if k' = k then some vs else lookupIndex rest k

/-- `first(items, cond)` (line 77): `next(item for item in items if cond(item))`;
`none` models the `StopIteration` escaping from `next` when nothing matches. -/
def first (items : List α) (cond : α → Bool) : Option α := items.find? cond

/-- The variant-selection predicate `p.get("language") in (None, "en-US")`. -/
def langOk (p : Pkg) : Bool := p.language = none || p.language = some "en-US"

/-- `first(packages[k], lambda p: p.get("language") in (None, "en-US"))`,
with lookup failure collapsed into `none`. -/
def variantOf (idx : List (String × List Pkg)) (k : String) : Option Pkg :=
  (lookupIndex idx k).bind (fun vs => first vs langOk)

/-- The two failure modes of looking up and selecting a variant. -/
inductive VErr where
  | keyError        -- `packages[k]` raises KeyError
  | variantNotFound -- `first(...)` raises StopIteration
deriving DecidableEq

/-- Variant selection with the two failure modes kept apart. -/
def selectVariant (idx : List (String × List Pkg)) (k : String) : Except VErr Pkg :=
  match lookupIndex idx k with
  | none => .error .keyError
  | some vs =>
    match first vs langOk with
    | none => .error .variantNotFound
    | some p => .ok p

/-- The dependency id referenced by one entry of a dependency map, lowercased
as the walk does; `none` when the entry is an object without an `id` key. -/
def depIdOf (key : String) : Dep → Option String
  | .verStr _ => some (pyLower key)
  | .objWithId i => some (pyLower i)
  | .objNoId => none

/-- All dependency ids the walk would recurse into from record `p`. -/
def depIds (p : Pkg) : List String :=
  (p.dependencies.getD []).filterMap (fun e => depIdOf e.1 e.2)

/-- The test deciding whether `get_package` reaches the extraction stage:
`"payloads" in p.keys() and p["type"] == "Vsix"` (negation of line 295). -/
def isVsix (p : Pkg) : Bool := p.payloads.isSome && p.type = "Vsix"

/-- The mutable process state touched by `get_package`:
`already_gotten_packages` and the log of payloads downloaded and extracted. -/
structure St where
  visited : List String
  downloads : List Payload
deriving DecidableEq

/-- Abnormal outcomes of the dependency walk. -/
inductive GErr where
  | stackOverflow -- Python RecursionError: the recursion-depth budget ran out
  | keyError      -- `packages[package]` raises KeyError
  | stopIteration -- `first(...)` raises StopIteration
deriving DecidableEq

/-- The `for dep_key, dep_val in dependencies.items()` loop of `get_package`
(lines 288-292), parametrized by the recursive call `go`. -/
def walkDeps (go : String → St → Except GErr St) :
    List (String × Dep) → St → Except GErr St
  | [], st => .ok st
  | (key, dv) :: rest, st =>
    match (match depIdOf key dv with
           | some d => go d st
           | none => .ok st) with
    | .error e => .error e
    | .ok st' => walkDeps go rest st'

/-- One unfolding of `get_package(package)` (lines 278-308): the visited check,
variant selection, dependency walk, the early return for records without a
`Vsix` payload, and otherwise the download of every payload followed by the
append to `already_gotten_packages`.  The zip extraction per payload is a
filesystem effect recorded only through the `downloads` log (its content
filter is modelled separately by `extractZip`). -/
def getPackageStep (idx : List (String × List Pkg)) (go : String → St → Except GErr St)
    (package : String) (st : St) : Except GErr St :=
  if package ∈ st.visited then .ok st
  else
    match lookupIndex idx package with
    | none => .error .keyError
    | some vs =>
      match first vs langOk with
      | none => .error .stopIteration
      | some p =>
        match walkDeps go (p.dependencies.getD []) st with
        | .error e => .error e
        | .ok st1 =>
          if isVsix p then
            .ok { visited := st1.visited ++ [pyLower p.id],
                  downloads := st1.downloads ++ p.payloads.getD [] }
          else .ok st1

/-- `get_package` with an explicit recursion-depth budget (Python enforces one
through its recursion limit; exhausting it raises `RecursionError`). -/
def get_package (idx : List (String × List Pkg)) : Nat → String → St → Except GErr St :=
  fun fuel =>
    match fuel with
    | 0 => fun _ _ => .error .stackOverflow
    | fuel + 1 => getPackageStep idx (get_package idx fuel)

/-- One iteration of the retry loop of `download_with_progress` (lines 41-58),
as observed on the wire.  `connectFail`: `urlopen` itself raises `URLError`.
`netFail cl got`: the connection opened with the given `Content-Length`
header, `got` bytes were read and written, then a read raised `URLError`.
`success cl body`: the connection opened and `body` was read to the end.
The 1 MiB read chunking is abstracted to the concatenated bytes. -/
inductive Attempt where
  | connectFail
  | netFail (contentLength : Option Nat) (got : List Nat)
  | success (contentLength : Option Nat) (body : List Nat)
deriving DecidableEq

/-- Internal outcome of the retry loop. -/
inductive LoopOut where
  | done (buf : List Nat) -- `break` reached; `buf` is the accumulated BytesIO
  | noLength              -- `int(res.headers["Content-Length"])` = `int(None)`: TypeError
  | zeroDiv               -- `size * 100 // total` with `total == 0`: ZeroDivisionError
  | exhausted             -- the given attempts ran out with the loop still retrying
deriving DecidableEq

/-- The retry loop: `data` (the BytesIO) and the sink `f` are created once
outside it and receive every block of every attempt; nothing is reset when an
attempt fails. -/
def dlLoop : List Nat → List Attempt → LoopOut
  | _, [] => .exhausted
  | buf, .connectFail :: rest => dlLoop buf rest
  | _, .netFail none _ :: _ => .noLength
  | buf, .netFail (some total) got :: rest =>
    if total = 0 ∧ got ≠ [] then .zeroDiv else dlLoop (buf ++ got) rest
  | _, .success none _ :: _ => .noLength
  | buf, .success (some total) body :: _ =>
    if total = 0 ∧ body ≠ [] then .zeroDiv else .done (buf ++ body)

/-- Overall outcome of `download_with_progress`. -/
inductive DlResult where
  | ok (ret : List Nat) (sink : List Nat) -- value returned, bytes written to `f`
  | hashMismatch                          -- `exit(f"Hash mismatch ...")`
  | typeError                             -- missing Content-Length: `int(None)`
  | divByZero                             -- declared length 0 with a nonempty read
  | retrying                              -- still inside the retry loop
deriving DecidableEq

/-- `download_with_progress(url, check, name, f)` (lines 38-64), parametrized
by the SHA-256 hex-digest function (whose output, like `hashlib`'s
`hexdigest()`, is lowercase hex).  On completion the digest is computed over
the full accumulated buffer and compared against `check.lower()`; a mismatch
terminates the run.  The bytes written to the sink `f` are exactly the bytes
accumulated for the digest. -/
def download_with_progress (hexdigest : List Nat → String) (check : String)
    (attempts : List Attempt) : DlResult :=
  match dlLoop [] attempts with
  | .exhausted => .retrying
  | .noLength => .typeError
  | .zeroDiv => .divByZero
  | .done data => if pyLower check ≠ hexdigest data then .hashMismatch else .ok data data

/-- `max(sorted(keys))` (lines 198-199); Python `max` on strings is the
lexicographic maximum by code point, and `max` of an empty sequence raises. -/
def maxKey : List String → Option String
  | [] => none
  | k :: ks => some (ks.foldl (fun a b => if pyStrLt a b then b else a) k)

/-- `args.msvc_version or max(sorted(msvc_versions.keys()))` (line 198, and
line 199 for the SDK): a missing or empty override is falsy and falls through
to the string maximum. -/
def selectVersion (override : Option String) (keys : List String) : Option String :=
  match override with
  | some v => if v = "" then maxKey keys else some v
  | none => maxKey keys

/-- Python `name.split("/")`, keeping empty components. -/
def splitSlashAux : List Char → List Char → List String
  | [], acc => [⟨acc.reverse⟩]
  | c :: cs, acc =>
    if c = '/' then ⟨acc.reverse⟩ :: splitSlashAux cs [] else splitSlashAux cs (c :: acc)

/-- Split a path string on `/`. -/
def splitSlash (s : String) : List String := splitSlashAux s.data []

/-- Join path components with `/`. -/
def joinSlash : List String → String
  | [] => ""
  | [x] => x
  | x :: xs => x ++ "/" ++ joinSlash xs

/-- `Path(name).relative_to("Contents")` (line 305) for a `name` that starts
with `"Contents/"`: `pathlib` drops empty components, the leading `Contents`
is removed, and the remainder is re-joined. -/
def relativeToContents (name : String) : String :=
  joinSlash (((splitSlash name).filter (fun c => c ≠ "")).drop 1)

/-- The zip-extraction loop of `get_package` (lines 303-307): out of the
archive's entries (name and content bytes), exactly those whose name starts
with `"Contents/"` are written, at the prefix-stripped path under the output
root (parent directories are created as needed, a filesystem effect outside
the model), with their bytes verbatim. -/
def extractZip (entries : List (String × List Nat)) : List (String × List Nat) :=
  entries.filterMap
    (fun e => if startswith "Contents/" e.1 then some (relativeToContents e.1, e.2) else none)

/-- `b".cab"` as bytes. -/
def cabMarker : List Nat := [46, 99, 97, 98]

/-- Does `pat` occur in `msi` starting at offset `p`? -/
def matchAt (msi pat : List Nat) (p : Nat) : Bool :=
  decide ((msi.drop p).take pat.length = pat)

/-- Linear scan underlying `bytes.find`: try offsets `p, p+1, ...`, at most `k`
of them. -/
def bfindAux (msi pat : List Nat) : Nat → Nat → Option Nat
  | _, 0 => none
  | p, k + 1 => if matchAt msi pat p then some p else bfindAux msi pat (p + 1) k

/-- `msi.find(pat, start)` (line 71): the smallest offset `≥ start` where
`pat` occurs; `none` models the `-1` return. -/
def bfind (msi pat : List Nat) (start : Nat) : Option Nat :=
  bfindAux msi pat start (msi.length + 1 - start)

/-- Python slice-bound resolution for `msi[a:b]`: a negative bound counts from
the end of the buffer and clamps at 0, a nonnegative one clamps at the
length. -/
def pyBound (len : Nat) (i : Int) : Nat :=
  if i < 0 then (len + i).toNat else min i.toNat len

/-- Python slice `l[a:b]`. -/
def pySlice (l : List Nat) (a b : Int) : List Nat :=
  (l.take (pyBound l.length b)).drop (pyBound l.length a)

/-- The generator loop of `get_msi_cabs` (lines 68-74): repeatedly
`index = msi.find(b".cab", index + 4)`, yielding `msi[index - 32 : index + 4]`
until the find fails.  The extra counter bounds the number of yields so the
recursion is structural; `msi.length + 1` always suffices because each found
offset exceeds the previous one by at least 4. -/
def cabsAux (msi : List Nat) : Nat → Nat → List (List Nat)
  | _, 0 => []
  | index, k + 1 =>
    match bfind msi cabMarker (index + 4) with
    | none => []
    | some p => pySlice msi ((p : Int) - 32) ((p : Int) + 4) :: cabsAux msi p k

/-- The raw byte slices yielded by `get_msi_cabs(msi)`, in order. -/
def get_msi_cabs_slices (msi : List Nat) : List (List Nat) :=
  cabsAux msi 0 (msi.length + 1)

/-- The string whose characters are the given (ASCII) byte values. -/
def asciiStr (bs : List Nat) : String := ⟨bs.map Char.ofNat⟩

/-- `bytes.decode("ascii")`; `none` models `UnicodeDecodeError`. -/
def decodeAscii (bs : List Nat) : Option String :=
  if bs.all (fun b => b < 128) then some (asciiStr bs) else none

/-- Decode every slice; the first failure aborts the iteration, as the
exception escaping the generator would. -/
def decodeAll : List (List Nat) → Option (List String)
  | [] => some []
  | b :: rest =>
    match decodeAscii b, decodeAll rest with
    | some s, some ss => some (s :: ss)
    | _, _ => none

/-- `list(get_msi_cabs(msi))`: the decoded cab names, or `none` when iterating
the generator raises `UnicodeDecodeError`. -/
def get_msi_cabs (msi : List Nat) : Option (List String) :=
  decodeAll (get_msi_cabs_slices msi)

/-- All offsets at which the marker occurs in the buffer, in increasing
order. -/
def occList (msi : List Nat) : List Nat :=
  (List.range msi.length).filter (fun p => matchAt msi cabMarker p)

/-- One dependency edge of the package graph: `b` is among the dependency ids
of the variant that the walk selects for `a`. -/
def EdgeR (idx : List (String × List Pkg)) (a b : String) : Prop :=
  ∃ p, variantOf idx a = some p ∧ b ∈ depIds p

/-- Reachability along dependency edges. -/
def Reach (idx : List (String × List Pkg)) (a b : String) : Prop :=
  Relation.ReflTransGen (EdgeR idx) a b

/-- The selected variant of `q` exists and reaches the extraction stage. -/
def VsixAt (idx : List (String × List Pkg)) (q : String) : Prop :=
  ∃ p, variantOf idx q = some p ∧ isVsix p = true

/-- A visited list is closed when, for each of its members, every id that is
reachable from it and reaches the extraction stage is also in the list. -/
def ClosedV (idx : List (String × List Pkg)) (v : List String) : Prop :=
  ∀ x ∈ v, ∀ q, Reach idx x q → VsixAt idx q → q ∈ v

/-- A two-package dependency cycle: `a` depends on `b` and `b` on `a`, both
with a `Vsix` payload. -/
def cycA : Pkg := ⟨"a", none, "Vsix", some [⟨"u", "s", "f"⟩], some [("b", .verStr "1")]⟩

/-- The second half of the cycle. -/
def cycB : Pkg := ⟨"b", none, "Vsix", some [⟨"v", "t", "g"⟩], some [("a", .verStr "1")]⟩

/-- The package dictionary of the cyclic graph. -/
def cycIdx : List (String × List Pkg) := buildIndex [cycA, cycB]

/-- An acyclic two-package graph: `a` depends on `b`, both `Vsix`. -/
def dagA : Pkg := ⟨"a", none, "Vsix", some [⟨"u", "s", "f"⟩], some [("b", .verStr "1")]⟩

/-- The dependency-free leaf of the acyclic graph. -/
def dagB : Pkg := ⟨"b", none, "Vsix", some [⟨"v", "t", "g"⟩], none⟩

/-- Relation between the states before and after a successful call into the
dependency walk: the visited list and the download log only grow, and every
newly visited id is the lowercased id of a selected variant that reached the
extraction stage and whose payloads were all downloaded. -/
def GpSound (idx : List (String × List Pkg)) (st st' : St) : Prop :=
  (∃ t, st'.visited = st.visited ++ t)
  ∧ (∃ u, st'.downloads = st.downloads ++ u)
  ∧ ∀ q ∈ st'.visited, q ∈ st.visited
      ∨ ∃ b r, variantOf idx b = some r ∧ q = pyLower r.id ∧ isVsix r = true
          ∧ ∀ pl ∈ r.payloads.getD [], pl ∈ st'.downloads

/-- A constant hex-digest function, used to instantiate theorems about
`download_with_progress` at concrete inputs. -/
def hexConst (s : String) : List Nat → String := fun _ => s

deriving instance DecidableEq for Except

/-! ## Properties of the artifact fetcher (`download_with_progress`) -/

/-- Claim C2: for every payload, `download_with_progress` never returns bytes
whose SHA-256 hex digest differs, under case-insensitive comparison, from the
declared checksum; on a mismatch the whole run is terminated before the
function returns, so mismatched data is never passed to an extraction step.
Moreover the bytes handed to the sink are exactly the returned bytes. -/
theorem c2_download_integrity (hexdigest : List Nat → String) (check : String)
    (attempts : List Attempt) (ret sink : List Nat)
    (h : download_with_progress hexdigest check attempts = .ok ret sink) :
    pyLower check = hexdigest ret ∧ sink = ret := by
  unfold download_with_progress at h
  split at h
  · simp at h
  · simp at h
  · simp at h
  · split at h
    · simp at h
    · rename_i hc
      rw [not_ne_iff] at hc
      obtain ⟨rfl, rfl⟩ := DlResult.ok.inj h
      exact ⟨hc, rfl⟩

/-- Witness for C2 at a concrete transfer. -/
theorem c2_witness :
    download_with_progress (hexConst "ab") "AB" [.success (some 3) [1, 2, 3]]
        = .ok [1, 2, 3] [1, 2, 3]
    ∧ pyLower "AB" = hexConst "ab" [1, 2, 3] :=
  ⟨by decide,
   (c2_download_integrity (hexConst "ab") "AB" [.success (some 3) [1, 2, 3]]
      [1, 2, 3] [1, 2, 3] (by decide)).1⟩

/-! ## Lexicographic string comparison: order facts for `maxKey` -/

theorem charListLt_irrefl : ∀ l : List Char, charListLt l l = false := by
  intro l
  induction l with
  | nil => rfl
  | cons a as ih => simp [charListLt, lt_irrefl, ih]

theorem charListLt_trans : ∀ l1 l2 l3 : List Char,
    charListLt l1 l2 = true → charListLt l2 l3 = true → charListLt l1 l3 = true := by
  intro l1
  induction l1 with
  | nil =>
    intro l2 l3 h12 h23
    cases l2 with
    | nil => simp [charListLt] at h12
    | cons b bs =>
      cases l3 with
      | nil => simp [charListLt] at h23
      | cons c cs => simp [charListLt]
  | cons a as ih =>
    intro l2 l3 h12 h23
    cases l2 with
    | nil => simp [charListLt] at h12
    | cons b bs =>
      cases l3 with
      | nil => simp [charListLt] at h23
      | cons c cs =>
        simp only [charListLt] at h12 h23 ⊢
        by_cases hab : a < b
        · by_cases hbc : b < c
          · simp [lt_trans hab hbc]
          · by_cases hcb : c < b
            · simp [hbc, hcb] at h23
            · have : b = c := le_antisymm (not_lt.mp hcb) (not_lt.mp hbc)
              subst this
              simp [hab]
        · by_cases hba : b < a
          · simp [hab, hba] at h12
          · have : a = b := le_antisymm (not_lt.mp hba) (not_lt.mp hab)
            subst this
            simp [hab, lt_irrefl] at h12 ⊢
            by_cases hbc : a < c
            · simp [hbc]
            · by_cases hcb : c < a
              · simp [hbc, hcb] at h23
              · have : a = c := le_antisymm (not_lt.mp hcb) (not_lt.mp hbc)
                subst this
                simp [lt_irrefl] at h23 ⊢
                exact ih bs cs h12 h23

theorem charListLt_connex : ∀ l1 l2 : List Char,
    charListLt l1 l2 = false → charListLt l2 l1 = true ∨ l1 = l2 := by
  intro l1
  induction l1 with
  | nil =>
    intro l2 h
    cases l2 with
    | nil => exact Or.inr rfl
    | cons b bs => simp [charListLt] at h
  | cons a as ih =>
    intro l2 h
    cases l2 with
    | nil => exact Or.inl rfl
    | cons b bs =>
      simp only [charListLt] at h ⊢
      by_cases hab : a < b
      · simp [hab] at h
      · by_cases hba : b < a
        · simp [hba]
        · have : a = b := le_antisymm (not_lt.mp hba) (not_lt.mp hab)
          subst this
          simp [lt_irrefl] at h ⊢
          rcases ih bs h with h' | h'
          · exact Or.inl h'
          · exact Or.inr h'

theorem pyStrLt_trans {a b c : String} (h1 : pyStrLt a b = true) (h2 : pyStrLt b c = true) :
    pyStrLt a c = true :=
  charListLt_trans a.data b.data c.data h1 h2

theorem pyStrLt_connex {a b : String} (h : pyStrLt a b = false) :
    pyStrLt b a = true ∨ a = b := by
  rcases charListLt_connex a.data b.data h with h' | h'
  · exact Or.inl h'
  · exact Or.inr (congrArg String.mk h')

theorem pyStrLt_irrefl (a : String) : pyStrLt a a = false :=
  charListLt_irrefl a.data

/-- The fold computing Python `max` over strings returns an element of the
collection that no element strictly exceeds. -/
theorem foldMax_spec : ∀ (ks : List String) (k : String),
    (ks.foldl (fun a b => if pyStrLt a b then b else a) k = k
      ∨ ks.foldl (fun a b => if pyStrLt a b then b else a) k ∈ ks)
    ∧ pyStrLt (ks.foldl (fun a b => if pyStrLt a b then b else a) k) k = false
    ∧ ∀ x ∈ ks, pyStrLt (ks.foldl (fun a b => if pyStrLt a b then b else a) k) x = false := by
  intro ks
  induction ks with
  | nil => intro k; simp [pyStrLt_irrefl]
  | cons b bs ih =>
    intro k
    simp only [List.foldl_cons]
    by_cases hkb : pyStrLt k b = true
    · rw [if_pos hkb]
      rcases ih b with ⟨hmem, hk', hall⟩
      refine ⟨Or.inr ?_, ?_, ?_⟩
      · rcases hmem with h | h
        · simp [h]
        · simp [h]
      · cases hmk : pyStrLt (bs.foldl (fun a b => if pyStrLt a b then b else a) b) k with
        | false => rfl
        | true =>
          exfalso
          rcases pyStrLt_connex hk' with hbm | hbm
          · have h1 := pyStrLt_trans hkb hbm
            have h2 := pyStrLt_trans hmk h1
            rw [pyStrLt_irrefl] at h2
            exact Bool.false_ne_true h2
          · rw [hbm] at hmk
            have h2 := pyStrLt_trans hmk hkb
            rw [pyStrLt_irrefl] at h2
            exact Bool.false_ne_true h2
      · intro x hx
        rcases List.mem_cons.mp hx with rfl | hx
        · exact hk'
        · exact hall x hx
    · rw [if_neg hkb]
      rcases ih k with ⟨hmem, hk', hall⟩
      simp only [Bool.not_eq_true] at hkb
      refine ⟨?_, hk', ?_⟩
      · rcases hmem with h | h
        · exact Or.inl h
        · exact Or.inr (List.mem_cons_of_mem _ h)
      · intro x hx
        rcases List.mem_cons.mp hx with rfl | hx
        · cases hmx : pyStrLt (bs.foldl (fun a b => if pyStrLt a b then b else a) k) x with
          | false => rfl
          | true =>
            exfalso
            rcases pyStrLt_connex hkb with hxk | hxk
            · have h1 := pyStrLt_trans hmx hxk
              rw [hk'] at h1
              exact Bool.false_ne_true h1
            · rw [← hxk] at hmx
              rw [hk'] at hmx
              exact Bool.false_ne_true hmx
        · exact hall x hx

/-- `maxKey` returns a key that no key strictly exceeds (a lexicographic
maximum). -/
theorem maxKey_spec (keys : List String) (m : String) (h : maxKey keys = some m) :
    m ∈ keys ∧ ∀ x ∈ keys, pyStrLt m x = false := by
  cases keys with
  | nil => simp [maxKey] at h
  | cons k ks =>
    simp only [maxKey, Option.some.injEq] at h
    rcases foldMax_spec ks k with ⟨hmem, hk, hall⟩
    subst h
    constructor
    · rcases hmem with h | h
      · simp [h]
      · exact List.mem_cons_of_mem _ h
    · intro x hx
      rcases List.mem_cons.mp hx with rfl | hx
      · exact hk
      · exact hall x hx

/-- Claim C3, counterexample: version selection without an override on the
candidate set from the claim does not return `"14.40"`. -/
theorem c3_counterexample :
    selectVersion none ["14.38", "14.40", "14.9"] ≠ some "14.40" := by decide

/-- Claim C3, amended: without an override, version resolution returns the
highest discovered key under plain string (lexicographic) ordering, not
numeric comparison; on the candidate set `{"14.38", "14.40", "14.9"}` that
maximum is `"14.9"` (the code-point comparison puts `"14.9"` above
`"14.40"`). -/
theorem c3_amended :
    (∀ keys m, selectVersion none keys = some m →
      m ∈ keys ∧ ∀ x ∈ keys, pyStrLt m x = false)
    ∧ selectVersion none ["14.38", "14.40", "14.9"] = some "14.9" :=
  ⟨fun keys m h => maxKey_spec keys m h, by decide⟩

/-- Witness for C3 at the claim's candidate set. -/
theorem c3_witness :
    "14.9" ∈ ["14.38", "14.40", "14.9"]
    ∧ ∀ x ∈ ["14.38", "14.40", "14.9"], pyStrLt "14.9" x = false :=
  c3_amended.1 ["14.38", "14.40", "14.9"] "14.9" (by decide)

/-! ## Retry behaviour of the fetcher -/

theorem dlLoop_connectFail : ∀ (n : Nat) (buf : List Nat) (rest : List Attempt),
    dlLoop buf (List.replicate n .connectFail ++ rest) = dlLoop buf rest := by
  intro n
  induction n with
  | zero => intro buf rest; rfl
  | succ n ih => intro buf rest; simpa [List.replicate_succ, dlLoop] using ih buf rest

/-- Claim C5, counterexample: a response carrying the full payload but no
Content-Length header makes `download_with_progress` die with an uncaught
`TypeError` from `int(None)`; the transfer does not complete and nothing is
returned. -/
theorem c5_counterexample :
    download_with_progress (hexConst "ab") "ab" [.success none [1, 2, 3]] = .typeError := by
  decide

/-- Claim C5, amended: the payload download retries indefinitely on transient
network failure (any number of connection failures leaves it retrying, and a
subsequent successful response completes the transfer normally), but when the
server does not provide a Content-Length header the script crashes with an
uncaught `TypeError` (`int(None)`) instead of completing the transfer. -/
theorem c5_amended :
    (∀ (hexdigest : List Nat → String) (check : String) (n : Nat),
      download_with_progress hexdigest check (List.replicate n .connectFail) = .retrying)
    ∧ (∀ (hexdigest : List Nat → String) (check : String) (n total : Nat) (body : List Nat),
        total ≠ 0 →
        download_with_progress hexdigest check
            (List.replicate n .connectFail ++ [.success (some total) body])
          = if pyLower check ≠ hexdigest body then .hashMismatch else .ok body body)
    ∧ (∀ (hexdigest : List Nat → String) (check : String) (body : List Nat)
        (rest : List Attempt),
        download_with_progress hexdigest check (.success none body :: rest) = .typeError) := by
  refine ⟨?_, ?_, ?_⟩
  · intro hexdigest check n
    unfold download_with_progress
    rw [show List.replicate n Attempt.connectFail
          = List.replicate n Attempt.connectFail ++ [] by simp,
        dlLoop_connectFail]
    rfl
  · intro hexdigest check n total body htotal
    unfold download_with_progress
    rw [dlLoop_connectFail]
    have hcond : ¬(total = 0 ∧ body ≠ []) := by
      rintro ⟨h0, -⟩; exact htotal h0
    simp only [dlLoop, if_neg hcond, List.nil_append]
  · intro hexdigest check body rest
    rfl

/-- Witness for C5 at a concrete transfer with two transient failures. -/
theorem c5_witness :
    download_with_progress (hexConst "ab") "ab"
        (List.replicate 2 .connectFail ++ [.success (some 3) [1, 2, 3]])
      = if pyLower "ab" ≠ hexConst "ab" [1, 2, 3] then .hashMismatch
        else .ok [1, 2, 3] [1, 2, 3] :=
  c5_amended.2.1 (hexConst "ab") "ab" 2 3 [1, 2, 3] (by decide)

/-- Claim C8: the digest buffer and the sink live outside the retry loop and
are not reset on retry, so after a transient failure that already received
`got` bytes, the retry appends the re-downloaded stream after that partial
prefix: the digest is computed over `got ++ body` (not over the payload
alone), the returned data and the bytes the sink received are `got ++ body`,
and when `got` is nonempty that differs from the payload `body` itself. -/
theorem c8_buffer_not_reset (hexdigest : List Nat → String) (check : String)
    (total1 total2 : Nat) (got body : List Nat)
    (h1 : total1 ≠ 0) (h2 : total2 ≠ 0) :
    (download_with_progress hexdigest check
        [.netFail (some total1) got, .success (some total2) body]
      = if pyLower check ≠ hexdigest (got ++ body) then .hashMismatch
        else .ok (got ++ body) (got ++ body))
    ∧ (got ≠ [] → got ++ body ≠ body) := by
  constructor
  · unfold download_with_progress
    have hc1 : ¬(total1 = 0 ∧ got ≠ []) := by rintro ⟨h0, -⟩; exact h1 h0
    have hc2 : ¬(total2 = 0 ∧ body ≠ []) := by rintro ⟨h0, -⟩; exact h2 h0
    simp only [dlLoop, if_neg hc1, if_neg hc2, List.nil_append]
  · intro hne heq
    have hl := congrArg List.length heq
    simp at hl
    exact hne hl

/-- Witness for C8 at a concrete interrupted transfer. -/
theorem c8_witness :
    (download_with_progress (hexConst "ab") "ab"
        [.netFail (some 9) [7], .success (some 9) [1]]
      = if pyLower "ab" ≠ hexConst "ab" ([7] ++ [1]) then .hashMismatch
        else .ok ([7] ++ [1]) ([7] ++ [1]))
    ∧ ([7] : List Nat) ++ [1] ≠ [1] :=
  ⟨(c8_buffer_not_reset (hexConst "ab") "ab" 9 9 [7] [1] (by decide) (by decide)).1,
   (c8_buffer_not_reset (hexConst "ab") "ab" 9 9 [7] [1] (by decide) (by decide)).2
     (by decide)⟩

/-! ## Zip extraction -/

/-- Claim C6: for every archive, extraction writes exactly the entries whose
name starts with `"Contents/"`, at the prefix-stripped path, with their bytes
verbatim, and skips every entry outside the prefix; with entries
`Contents/a/b.txt` and `Other/c.txt` only `a/b.txt` is written. -/
theorem c6_zip_extraction :
    (∀ (entries : List (String × List Nat)) (out : String) (data : List Nat),
      (out, data) ∈ extractZip entries ↔
        ∃ name, (name, data) ∈ entries ∧ startswith "Contents/" name = true
          ∧ out = relativeToContents name)
    ∧ extractZip [("Contents/a/b.txt", [1, 2]), ("Other/c.txt", [3])]
        = [("a/b.txt", [1, 2])] := by
  constructor
  · intro entries out data
    constructor
    · intro h
      rcases List.mem_filterMap.mp h with ⟨⟨name, d⟩, hmem, hf⟩
      by_cases hpre : startswith "Contents/" name = true
      · rw [if_pos hpre] at hf
        have h1 : (relativeToContents name, d) = (out, data) := Option.some.inj hf
        have h2 : relativeToContents name = out := congrArg Prod.fst h1
        have h3 : d = data := congrArg Prod.snd h1
        exact ⟨name, h3 ▸ hmem, hpre, h2.symm⟩
      · rw [if_neg hpre] at hf
        cases hf
    · rintro ⟨name, hmem, hpre, rfl⟩
      exact List.mem_filterMap.mpr ⟨(name, data), hmem, by simp [hpre]⟩
  · decide

/-! ## The package index and variant selection -/

theorem lookup_addRecord : ∀ (idx : List (String × List Pkg)) (key : String) (p : Pkg)
    (k : String),
    lookupIndex (addRecord idx key p) k =
      if key = k then some ((lookupIndex idx k).getD [] ++ [p]) else lookupIndex idx k := by
  intro idx
  induction idx with
  | nil =>
    intro key p k
    by_cases h : key = k <;> simp [addRecord, lookupIndex, h]
  | cons e rest ih =>
    intro key p k
    obtain ⟨k', vs⟩ := e
    by_cases h1 : k' = key
    · subst h1
      by_cases h2 : k' = k
      · subst h2
        simp [addRecord, lookupIndex]
      · simp [addRecord, lookupIndex, h2, Ne.symm h2]
    · by_cases h2 : k' = k
      · subst h2
        have : ¬ key = k' := fun h => h1 h.symm
        simp [addRecord, lookupIndex, h1, this]
      · simp [addRecord, lookupIndex, h1, h2, ih key p k]

theorem buildIndexAux : ∀ (records : List Pkg) (idx : List (String × List Pkg)) (k : String),
    lookupIndex (records.foldl (fun i p => addRecord i (pyLower p.id) p) idx) k =
      match lookupIndex idx k with
      | some vs => some (vs ++ records.filter (fun p => pyLower p.id = k))
      | none =>
        if records.filter (fun p => pyLower p.id = k) = [] then none
        else some (records.filter (fun p => pyLower p.id = k)) := by
  intro records
  induction records with
  | nil =>
    intro idx k
    cases h : lookupIndex idx k <;> simp [h]
  | cons p rest ih =>
    intro idx k
    simp only [List.foldl_cons]
    rw [ih (addRecord idx (pyLower p.id) p) k, lookup_addRecord]
    by_cases hp : pyLower p.id = k
    · rw [if_pos hp]
      cases h : lookupIndex idx k with
      | some vs => simp [h, List.filter_cons, hp]
      | none => simp [h, List.filter_cons, hp]
    · rw [if_neg hp]
      cases h : lookupIndex idx k with
      | some vs => simp [h, List.filter_cons, hp]
      | none => simp [h, List.filter_cons, hp]

/-- The dictionary built from the manifest maps each lowercased id to exactly
the records carrying that id, in manifest order; ids never seen are absent. -/
theorem buildIndex_lookup (records : List Pkg) (k : String) :
    lookupIndex (buildIndex records) k =
      if records.filter (fun p => pyLower p.id = k) = [] then none
      else some (records.filter (fun p => pyLower p.id = k)) := by
  have h := buildIndexAux records [] k
  simpa [lookupIndex] using h

theorem find?_eq_some_split : ∀ (l : List α) (p : α → Bool) (a : α),
    l.find? p = some a ↔
      ∃ l1 l2, l = l1 ++ a :: l2 ∧ p a = true ∧ ∀ x ∈ l1, p x = false := by
  intro l p
  induction l with
  | nil =>
    intro a
    constructor
    · intro h; simp at h
    · rintro ⟨l1, l2, heq, -, -⟩
      exact absurd heq (by simp)
  | cons b bs ih =>
    intro a
    by_cases hb : p b = true
    · rw [List.find?_cons_of_pos _ hb]
      constructor
      · intro h
        obtain rfl := Option.some.inj h
        exact ⟨[], bs, rfl, hb, by simp⟩
      · rintro ⟨l1, l2, heq, hpa, hall⟩
        cases l1 with
        | nil =>
          simp at heq
          rw [heq.1]
        | cons c l1' =>
          simp at heq
          exact absurd (heq.1 ▸ hall c (by simp)) (by simp [hb])
    · rw [List.find?_cons_of_neg _ (by simpa using hb)]
      rw [ih a]
      constructor
      · rintro ⟨l1, l2, heq, hpa, hall⟩
        refine ⟨b :: l1, l2, by simp [heq], hpa, ?_⟩
        intro x hx
        rcases List.mem_cons.mp hx with rfl | hx
        · simpa using hb
        · exact hall x hx
      · rintro ⟨l1, l2, heq, hpa, hall⟩
        cases l1 with
        | nil =>
          simp at heq
          exact absurd (heq.1 ▸ hpa) (by simpa using hb)
        | cons c l1' =>
          simp at heq
          exact ⟨l1', l2, heq.2, hpa, fun x hx => hall x (by simp [hx])⟩

theorem find?_filter_comm : ∀ (l : List α) (pred q : α → Bool),
    (l.filter pred).find? q = l.find? (fun x => pred x && q x) := by
  intro l pred q
  induction l with
  | nil => rfl
  | cons b bs ih =>
    by_cases hb : pred b = true
    · by_cases hq : q b = true
      · simp [List.filter_cons, hb, List.find?_cons_of_pos, hq, Bool.and_eq_true]
      · have hq' : q b = false := by simpa using hq
        simp [List.filter_cons, hb, hq', List.find?_cons_of_neg, ih]
    · have hb' : pred b = false := by simpa using hb
      simp [List.filter_cons, hb', List.find?_cons_of_neg, ih]

/-- Claim C7: for every package id, variant selection returns the first record
in manifest order whose (lowercased) id is the looked-up key and whose
language field is unset or equals the preferred locale `"en-US"`; when records
with the id exist but none matches, it fails with the variant-not-found error
(the `StopIteration` escaping from `first`). -/
theorem c7_variant_selection (records : List Pkg) (k : String) (v : Pkg) :
    (selectVariant (buildIndex records) k = .ok v ↔
      ∃ l1 l2, records = l1 ++ v :: l2 ∧ pyLower v.id = k ∧ langOk v = true ∧
        ∀ q ∈ l1, pyLower q.id = k → langOk q = false)
    ∧ (selectVariant (buildIndex records) k = .error .variantNotFound ↔
        (∃ q ∈ records, pyLower q.id = k)
        ∧ ∀ q ∈ records, pyLower q.id = k → langOk q = false) := by
  have hfind : (records.filter (fun p => pyLower p.id = k)).find? langOk
      = records.find? (fun x => decide (pyLower x.id = k) && langOk x) :=
    find?_filter_comm records (fun p => pyLower p.id = k) langOk
  by_cases hf : records.filter (fun p => pyLower p.id = k) = []
  · have hkey : selectVariant (buildIndex records) k = .error .keyError := by
      unfold selectVariant
      rw [buildIndex_lookup, if_pos hf]
    have hnomem : ∀ q ∈ records, ¬ pyLower q.id = k := by
      intro q hq hk
      have : q ∈ records.filter (fun p => pyLower p.id = k) :=
        List.mem_filter.mpr ⟨hq, by simpa using hk⟩
      rw [hf] at this
      simp at this
    constructor
    · rw [hkey]
      constructor
      · intro h; simp at h
      · rintro ⟨l1, l2, heq, hid, -, -⟩
        exact absurd hid (hnomem v (by simp [heq]))
    · rw [hkey]
      constructor
      · intro h; simp at h
      · rintro ⟨⟨q, hq, hk⟩, -⟩
        exact absurd hk (hnomem q hq)
  · have hsel : selectVariant (buildIndex records) k =
        match records.find? (fun x => decide (pyLower x.id = k) && langOk x) with
        | none => .error .variantNotFound
        | some p => .ok p := by
      unfold selectVariant
      rw [buildIndex_lookup, if_neg hf]
      show (match (records.filter (fun p => pyLower p.id = k)).find? langOk with
            | none => Except.error VErr.variantNotFound
            | some p => Except.ok p) = _
      rw [hfind]
    constructor
    · rw [hsel]
      cases hres : records.find? (fun x => decide (pyLower x.id = k) && langOk x) with
      | none =>
        simp only []
        constructor
        · intro h; simp at h
        · rintro ⟨l1, l2, heq, hid, hlang, -⟩
          have := List.find?_eq_none.mp hres v (by simp [heq])
          simp [hid, hlang] at this
      | some p =>
        simp only []
        rw [find?_eq_some_split] at hres
        rcases hres with ⟨l1, l2, heq, hp, hall⟩
        constructor
        · intro h
          obtain rfl := (Except.ok.inj h)
          simp only [Bool.and_eq_true, decide_eq_true_eq] at hp
          refine ⟨l1, l2, heq, hp.1, hp.2, ?_⟩
          intro q hq hk
          have := hall q hq
          simp only [Bool.and_eq_true, decide_eq_true_eq] at this
          cases hl : langOk q with
          | false => rfl
          | true => exact absurd (by simp [hk, hl] : (decide (pyLower q.id = k) && langOk q) = true) (by simp [this])
        · rintro ⟨m1, m2, heq2, hid2, hlang2, hall2⟩
          have hvfind : records.find? (fun x => decide (pyLower x.id = k) && langOk x) = some v := by
            rw [find?_eq_some_split]
            refine ⟨m1, m2, heq2, by simp [hid2, hlang2], ?_⟩
            intro x hx
            cases hxk : decide (pyLower x.id = k) with
            | false => simp
            | true =>
              have := hall2 x hx (by simpa using hxk)
              simp [this]
          have : records.find? (fun x => decide (pyLower x.id = k) && langOk x) = some p := by
            rw [find?_eq_some_split]
            exact ⟨l1, l2, heq, hp, hall⟩
          rw [hvfind] at this
          exact congrArg Except.ok (Option.some.inj this).symm
    · rw [hsel]
      cases hres : records.find? (fun x => decide (pyLower x.id = k) && langOk x) with
      | none =>
        simp only []
        constructor
        · intro _
          constructor
          · obtain ⟨q, hq⟩ := List.exists_mem_of_ne_nil _ hf
            have := List.mem_filter.mp hq
            exact ⟨q, this.1, by simpa using this.2⟩
          · intro q hq hk
            have := List.find?_eq_none.mp hres q hq
            simp only [Bool.and_eq_true, decide_eq_true_eq, not_and] at this
            cases hl : langOk q with
            | false => rfl
            | true => exact absurd hl (this hk)
        · intro _; trivial
      | some p =>
        simp only []
        constructor
        · intro h; simp at h
        · rintro ⟨-, hall2⟩
          rw [find?_eq_some_split] at hres
          rcases hres with ⟨l1, l2, heq, hp, -⟩
          simp only [Bool.and_eq_true, decide_eq_true_eq] at hp
          exact absurd hp.2 (by simp [hall2 p (by simp [heq]) hp.1])

/-! ## The cab-reference scan -/

theorem matchAt_length (msi : List Nat) (p : Nat) (h : matchAt msi cabMarker p = true) :
    p + 4 ≤ msi.length := by
  simp only [matchAt, decide_eq_true_eq] at h
  have hlen := congrArg List.length h
  simp only [List.length_take, List.length_drop, cabMarker] at hlen
  simp at hlen
  omega

theorem matchAt_byte (msi : List Nat) (p i : Nat) (h : matchAt msi cabMarker p = true)
    (hi : i < 4) : msi[p + i]? = cabMarker[i]? := by
  simp only [matchAt, decide_eq_true_eq] at h
  have hget := congrArg (fun l : List Nat => l[i]?) h
  simp only at hget
  rw [List.getElem?_take_of_lt (by simpa [cabMarker] using hi), List.getElem?_drop] at hget
  exact hget

theorem marker_spacing (msi : List Nat) (p q : Nat) (hp : matchAt msi cabMarker p = true)
    (hq : matchAt msi cabMarker q = true) (hlt : p < q) : p + 4 ≤ q := by
  by_contra hcon
  push_neg at hcon
  have hcase : q = p + 1 ∨ q = p + 2 ∨ q = p + 3 := by omega
  rcases hcase with h1 | h2 | h3
  · have e1 := matchAt_byte msi p 1 hp (by omega)
    have e2 := matchAt_byte msi q 0 hq (by omega)
    rw [h1] at e2
    simp [cabMarker] at e1 e2
    rw [e1] at e2
    simp at e2
  · have e1 := matchAt_byte msi p 2 hp (by omega)
    have e2 := matchAt_byte msi q 0 hq (by omega)
    rw [h2] at e2
    simp [cabMarker] at e1 e2
    rw [e1] at e2
    simp at e2
  · have e1 := matchAt_byte msi p 3 hp (by omega)
    have e2 := matchAt_byte msi q 0 hq (by omega)
    rw [h3] at e2
    simp [cabMarker] at e1 e2
    rw [e1] at e2
    simp at e2

theorem bfindAux_eq_some (msi pat : List Nat) : ∀ (k p q : Nat),
    bfindAux msi pat p k = some q →
    p ≤ q ∧ q < p + k ∧ matchAt msi pat q = true
      ∧ ∀ r, p ≤ r → r < q → matchAt msi pat r = false := by
  intro k
  induction k with
  | zero => intro p q h; simp [bfindAux] at h
  | succ k ih =>
    intro p q h
    by_cases hm : matchAt msi pat p = true
    · simp [bfindAux, hm] at h
      subst h
      exact ⟨le_refl p, by omega, hm, fun r h1 h2 => absurd (lt_of_le_of_lt h1 h2) (lt_irrefl p)⟩
    · simp [bfindAux, hm] at h
      obtain ⟨h1, h2, h3, h4⟩ := ih (p + 1) q h
      refine ⟨by omega, by omega, h3, ?_⟩
      intro r hr1 hr2
      rcases Nat.eq_or_lt_of_le hr1 with rfl | hgt
      · simpa using hm
      · exact h4 r (by omega) hr2

theorem bfindAux_eq_none (msi pat : List Nat) : ∀ (k p : Nat),
    bfindAux msi pat p k = none → ∀ r, p ≤ r → r < p + k → matchAt msi pat r = false := by
  intro k
  induction k with
  | zero => intro p _ r h1 h2; omega
  | succ k ih =>
    intro p h r h1 h2
    by_cases hm : matchAt msi pat p = true
    · simp [bfindAux, hm] at h
    · simp [bfindAux, hm] at h
      rcases Nat.eq_or_lt_of_le h1 with rfl | hgt
      · simpa using hm
      · exact ih (p + 1) h r (by omega) (by omega)

theorem bfind_eq_some (msi : List Nat) (start p : Nat)
    (h : bfind msi cabMarker start = some p) :
    start ≤ p ∧ matchAt msi cabMarker p = true
      ∧ ∀ r, start ≤ r → r < p → matchAt msi cabMarker r = false := by
  obtain ⟨h1, _, h3, h4⟩ := bfindAux_eq_some msi cabMarker _ start p h
  exact ⟨h1, h3, h4⟩

theorem bfind_eq_none (msi : List Nat) (start : Nat)
    (h : bfind msi cabMarker start = none) :
    ∀ r, start ≤ r → matchAt msi cabMarker r = false := by
  intro r hr
  by_cases hbig : r < start + (msi.length + 1 - start)
  · exact bfindAux_eq_none msi cabMarker _ start h r hr hbig
  · cases hm : matchAt msi cabMarker r with
    | false => rfl
    | true =>
      exfalso
      have := matchAt_length msi r hm
      omega

theorem mem_occList (msi : List Nat) (p : Nat) :
    p ∈ occList msi ↔ matchAt msi cabMarker p = true := by
  simp only [occList, List.mem_filter, List.mem_range]
  constructor
  · rintro ⟨-, h⟩; exact h
  · intro h
    exact ⟨by have := matchAt_length msi p h; omega, h⟩

theorem occList_pairwise (msi : List Nat) : (occList msi).Pairwise (· < ·) :=
  (List.pairwise_lt_range _).filter _

theorem filter_ge_split : ∀ (l : List Nat) (a b p : Nat), l.Pairwise (· < ·) → p ∈ l →
    a ≤ p → p < b → (∀ r ∈ l, a ≤ r → p ≤ r) → (∀ r ∈ l, p < r → b ≤ r) →
    l.filter (fun r => a ≤ r) = p :: l.filter (fun r => b ≤ r) := by
  intro l
  induction l with
  | nil => intro a b p _ hp; simp at hp
  | cons x t ih =>
    intro a b p hpw hp ha hb hmin hspace
    rcases List.mem_cons.mp hp with rfl | hpt
    · have htail : List.filter (fun r => decide (a ≤ r)) t
          = List.filter (fun r => decide (b ≤ r)) t := by
        apply List.filter_congr
        intro r hr
        have hpr : p < r := (List.pairwise_cons.mp hpw).1 r hr
        have hbr : b ≤ r := hspace r (List.mem_cons_of_mem _ hr) hpr
        have har : a ≤ r := by omega
        simp [har, hbr]
      have h1 : decide (a ≤ p) = true := decide_eq_true ha
      have h2 : decide (b ≤ p) = false := decide_eq_false (by omega)
      rw [List.filter_cons, List.filter_cons, h1, h2, htail]
      simp
    · have hxp : x < p := (List.pairwise_cons.mp hpw).1 p hpt
      have hxa : ¬ a ≤ x := by
        intro hax
        exact absurd (hmin x (by simp) hax) (by omega)
      have hxb : ¬ b ≤ x := by omega
      have h1 : decide (a ≤ x) = false := decide_eq_false hxa
      have h2 : decide (b ≤ x) = false := decide_eq_false hxb
      rw [List.filter_cons, List.filter_cons, h1, h2]
      simp only [Bool.false_eq_true, if_false]
      exact ih a b p (List.pairwise_cons.mp hpw).2 hpt ha hb
        (fun r hr => hmin r (List.mem_cons_of_mem _ hr))
        (fun r hr => hspace r (List.mem_cons_of_mem _ hr))

theorem cabsAux_eq (msi : List Nat) : ∀ (k index : Nat), msi.length ≤ index + 4 * k →
    cabsAux msi index k
      = ((occList msi).filter (fun p => index + 4 ≤ p)).map
          (fun p : Nat => pySlice msi ((p : Int) - 32) ((p : Int) + 4)) := by
  intro k
  induction k with
  | zero =>
    intro index hlen
    have hempty : (occList msi).filter (fun p => index + 4 ≤ p) = [] := by
      rw [List.filter_eq_nil_iff]
      intro p hp
      have hm := (mem_occList msi p).mp hp
      have := matchAt_length msi p hm
      simp
      omega
    rw [hempty]
    rfl
  | succ k ih =>
    intro index hlen
    show (match bfind msi cabMarker (index + 4) with
          | none => []
          | some p => pySlice msi ((p : Int) - 32) ((p : Int) + 4) :: cabsAux msi p k) = _
    cases hb : bfind msi cabMarker (index + 4) with
    | none =>
      have hnone := bfind_eq_none msi (index + 4) hb
      have hempty : (occList msi).filter (fun p => index + 4 ≤ p) = [] := by
        rw [List.filter_eq_nil_iff]
        intro p hp
        have hm := (mem_occList msi p).mp hp
        simp only [decide_eq_true_eq]
        intro hge
        rw [hnone p hge] at hm
        exact Bool.false_ne_true hm
      rw [hempty]
      rfl
    | some p =>
      obtain ⟨hge, hm, hminimal⟩ := bfind_eq_some msi (index + 4) p hb
      have hsplit := filter_ge_split (occList msi) (index + 4) (p + 4) p
        (occList_pairwise msi) ((mem_occList msi p).mpr hm) hge (by omega)
        (fun r hr har => by
          by_contra hc
          push_neg at hc
          have hfalse := hminimal r har hc
          have htrue := (mem_occList msi r).mp hr
          rw [hfalse] at htrue
          exact Bool.false_ne_true htrue)
        (fun r hr hpr => marker_spacing msi p r hm ((mem_occList msi r).mp hr) hpr)
      show pySlice msi ((p : Int) - 32) ((p : Int) + 4) :: cabsAux msi p k = _
      rw [hsplit, List.map_cons]
      congr 1
      exact ih p (by omega)

/-- The scan yields exactly one slice `msi[p - 32 : p + 4]` per marker
occurrence at offset `p ≥ 4`, in left-to-right order; occurrences at offsets
0 to 3 are skipped because the first `find` starts at offset 4. -/
theorem get_msi_cabs_slices_eq (msi : List Nat) :
    get_msi_cabs_slices msi
      = ((occList msi).filter (fun p => 4 ≤ p)).map
          (fun p : Nat => pySlice msi ((p : Int) - 32) ((p : Int) + 4)) := by
  have h := cabsAux_eq msi (msi.length + 1) 0 (by omega)
  rw [get_msi_cabs_slices, h]

/-- Claim C10: the first search of the cab scan begins at byte offset 4, so a
marker occurrence starting at offsets 0-3 is never reported; and a reported
occurrence at offset `p` with `4 ≤ p < 32` yields the slice
`msi[p - 32 : p + 4]` whose start index is negative, so Python resolves it
from the end of the buffer (`msi.length + p - 32`) rather than taking the 32
bytes preceding the marker -- in particular, whenever the buffer holds at
least 36 bytes the yielded slice is empty.  The concrete conjuncts exhibit a
marker at offset 0 that is never reported, and a marker at offset 4 in a
36-byte buffer whose yielded name is the empty slice. -/
theorem c10_scan_window :
    (∀ msi : List Nat, get_msi_cabs_slices msi
        = ((occList msi).filter (fun p => 4 ≤ p)).map
            (fun p : Nat => pySlice msi ((p : Int) - 32) ((p : Int) + 4)))
    ∧ (∀ (msi : List Nat) (p : Nat), p ∈ occList msi → 4 ≤ p → p < 32 →
        ((p : Int) - 32 < 0
        ∧ pySlice msi ((p : Int) - 32) ((p : Int) + 4)
            = (msi.take (p + 4)).drop (msi.length + p - 32)
        ∧ (36 ≤ msi.length → pySlice msi ((p : Int) - 32) ((p : Int) + 4) = [])))
    ∧ get_msi_cabs_slices [46, 99, 97, 98] = []
    ∧ occList [46, 99, 97, 98] = [0]
    ∧ get_msi_cabs_slices ([9, 9, 9, 9] ++ [46, 99, 97, 98] ++ List.replicate 28 7)
        = [[]] := by
  refine ⟨get_msi_cabs_slices_eq, ?_, by decide, by decide, by decide⟩
  intro msi p hp h4 h32
  have hm := (mem_occList msi p).mp hp
  have hlen := matchAt_length msi p hm
  have hb1 : pyBound msi.length ((p : Int) + 4) = p + 4 := by
    unfold pyBound
    rw [if_neg (by omega)]
    have ht : ((p : Int) + 4).toNat = p + 4 := by omega
    rw [ht, min_eq_left (by omega)]
  have hb2 : pyBound msi.length ((p : Int) - 32) = msi.length + p - 32 := by
    unfold pyBound
    rw [if_pos (by omega)]
    omega
  have heq : pySlice msi ((p : Int) - 32) ((p : Int) + 4)
      = (msi.take (p + 4)).drop (msi.length + p - 32) := by
    simp only [pySlice, hb1, hb2]
  refine ⟨by omega, heq, ?_⟩
  intro h36
  rw [heq]
  apply List.drop_eq_nil_of_le
  rw [List.length_take, min_eq_left (by omega)]
  omega

/-- Witness for C10 at the 36-byte buffer with a marker at offset 4. -/
theorem c10_witness :
    ((4 : Int) - 32 < 0
    ∧ pySlice ([9, 9, 9, 9] ++ [46, 99, 97, 98] ++ List.replicate 28 7)
        ((4 : Int) - 32) ((4 : Int) + 4)
      = ((([9, 9, 9, 9] ++ [46, 99, 97, 98] ++ List.replicate 28 7)).take (4 + 4)).drop
          (([9, 9, 9, 9] ++ [46, 99, 97, 98] ++ List.replicate 28 7).length + 4 - 32)
    ∧ (36 ≤ ([9, 9, 9, 9] ++ [46, 99, 97, 98] ++ List.replicate 28 7).length →
        pySlice ([9, 9, 9, 9] ++ [46, 99, 97, 98] ++ List.replicate 28 7)
          ((4 : Int) - 32) ((4 : Int) + 4) = [])) :=
  c10_scan_window.2.1 ([9, 9, 9, 9] ++ [46, 99, 97, 98] ++ List.replicate 28 7) 4
    (by decide) (by decide) (by decide)

/-- Every slice decodes when its bytes are ASCII. -/
theorem decodeAll_all_ascii : ∀ slices : List (List Nat),
    (∀ s ∈ slices, ∀ b ∈ s, b < 128) →
    decodeAll slices = some (slices.map asciiStr) := by
  intro slices
  induction slices with
  | nil => intro _; rfl
  | cons s rest ih =>
    intro h
    have hs : decodeAscii s = some (asciiStr s) := by
      unfold decodeAscii
      rw [if_pos]
      rw [List.all_eq_true]
      intro b hb
      simpa using h s (by simp) b hb
    show (match decodeAscii s, decodeAll rest with
          | some s', some ss => some (s' :: ss)
          | _, _ => none) = _
    rw [hs, ih (fun s' hs' b hb => h s' (List.mem_cons_of_mem _ hs') b hb)]
    rfl

/-- Claim C4, counterexample: a buffer with exactly one occurrence of the
marker, preceded by 32 arbitrary bytes (here `0xFF`), on which the scan does
not yield one decoded name: decoding the slice as ASCII fails and the
iteration dies with `UnicodeDecodeError`. -/
theorem c4_counterexample :
    get_msi_cabs (List.replicate 32 255 ++ [46, 99, 97, 98]) = none
    ∧ occList (List.replicate 32 255 ++ [46, 99, 97, 98]) = [32] := by
  constructor
  · decide
  · decide

/-- Claim C4, amended: for every byte buffer whose marker occurrences all lie
at offset at least 32 and whose 36-byte windows ending at the markers are
ASCII (bytes below 128), the scan yields exactly one decoded name per
occurrence -- the 36 bytes ending at and including the marker -- in
left-to-right occurrence order, and consecutive marker matches do not overlap
(successive occurrence offsets differ by at least 4). -/
theorem c4_amended : ∀ (msi : List Nat) (ps : List Nat), occList msi = ps →
    (∀ p ∈ ps, 32 ≤ p) →
    (∀ p ∈ ps, ∀ b ∈ (msi.drop (p - 32)).take 36, b < 128) →
    get_msi_cabs msi = some (ps.map (fun p => asciiStr ((msi.drop (p - 32)).take 36)))
    ∧ (∀ p ∈ ps, ((msi.drop (p - 32)).take 36).length = 36)
    ∧ List.Chain' (fun a b => a + 4 ≤ b) ps := by
  intro msi ps hocc h32 hascii
  subst hocc
  have hslice : ∀ p ∈ occList msi,
      pySlice msi ((p : Int) - 32) ((p : Int) + 4) = (msi.drop (p - 32)).take 36 := by
    intro p hp
    have hm := (mem_occList msi p).mp hp
    have hlen := matchAt_length msi p hm
    have h32p := h32 p hp
    have hb1 : pyBound msi.length ((p : Int) + 4) = p + 4 := by
      unfold pyBound
      rw [if_neg (by omega)]
      have ht : ((p : Int) + 4).toNat = p + 4 := by omega
      rw [ht, min_eq_left (by omega)]
    have hb2 : pyBound msi.length ((p : Int) - 32) = p - 32 := by
      unfold pyBound
      rw [if_neg (by omega)]
      have ht : ((p : Int) - 32).toNat = p - 32 := by omega
      rw [ht, min_eq_left (by omega)]
    simp only [pySlice, hb1, hb2]
    rw [List.drop_take]
    congr 1
    omega
  have hfilter : (occList msi).filter (fun p => 4 ≤ p) = occList msi := by
    apply List.filter_eq_self.mpr
    intro p hp
    have := h32 p hp
    simp
    omega
  refine ⟨?_, ?_, ?_⟩
  · unfold get_msi_cabs
    rw [get_msi_cabs_slices_eq, hfilter,
      List.map_congr_left hslice,
      decodeAll_all_ascii _ (by
        intro s hs b hb
        rcases List.mem_map.mp hs with ⟨p, hp, rfl⟩
        exact hascii p hp b hb),
      List.map_map]
    rfl
  · intro p hp
    have hm := (mem_occList msi p).mp hp
    have hlen := matchAt_length msi p hm
    have h32p := h32 p hp
    rw [List.length_take, List.length_drop, min_eq_left (by omega)]
  · refine List.Pairwise.chain' ?_
    refine List.Pairwise.imp_of_mem ?_ (occList_pairwise msi)
    intro a b ha hb hab
    exact marker_spacing msi a b ((mem_occList msi a).mp ha) ((mem_occList msi b).mp hb) hab

/-- Witness for C4 at a buffer of 32 ASCII bytes followed by the marker. -/
theorem c4_witness :
    get_msi_cabs (List.replicate 32 97 ++ [46, 99, 97, 98])
      = some ([32].map (fun p =>
          asciiStr (((List.replicate 32 97 ++ [46, 99, 97, 98]).drop (p - 32)).take 36)))
    ∧ (∀ p ∈ [32],
        ((((List.replicate 32 97 ++ [46, 99, 97, 98])).drop (p - 32)).take 36).length = 36)
    ∧ List.Chain' (fun a b => a + 4 ≤ b) [32] :=
  c4_amended (List.replicate 32 97 ++ [46, 99, 97, 98]) [32]
    (by decide) (by decide) (by decide)

/-! ## The dependency walk -/

theorem get_package_zero (idx : List (String × List Pkg)) :
    get_package idx 0 = fun _ _ => .error .stackOverflow := rfl

theorem get_package_succ (idx : List (String × List Pkg)) (fuel : Nat) :
    get_package idx (fuel + 1) = getPackageStep idx (get_package idx fuel) := rfl

theorem GpSound_refl (idx : List (String × List Pkg)) (st : St) : GpSound idx st st :=
  ⟨⟨[], by simp⟩, ⟨[], by simp⟩, fun q hq => Or.inl hq⟩

theorem GpSound_trans (idx : List (String × List Pkg)) (st st1 st2 : St)
    (h1 : GpSound idx st st1) (h2 : GpSound idx st1 st2) : GpSound idx st st2 := by
  obtain ⟨⟨t1, ht1⟩, ⟨u1, hu1⟩, hm1⟩ := h1
  obtain ⟨⟨t2, ht2⟩, ⟨u2, hu2⟩, hm2⟩ := h2
  refine ⟨⟨t1 ++ t2, by rw [ht2, ht1, List.append_assoc]⟩,
    ⟨u1 ++ u2, by rw [hu2, hu1, List.append_assoc]⟩, ?_⟩
  intro q hq
  rcases hm2 q hq with hq1 | ⟨b, r, hvar, hql, hvsix, hpl⟩
  · rcases hm1 q hq1 with hq0 | ⟨b, r, hvar, hql, hvsix, hpl⟩
    · exact Or.inl hq0
    · exact Or.inr ⟨b, r, hvar, hql, hvsix, fun pl hm =>
        by rw [hu2]; exact List.mem_append_left _ (hpl pl hm)⟩
  · exact Or.inr ⟨b, r, hvar, hql, hvsix, hpl⟩

theorem walkDeps_sound (idx : List (String × List Pkg))
    (go : String → St → Except GErr St)
    (hgo : ∀ a st st', go a st = .ok st' → GpSound idx st st') :
    ∀ (deps : List (String × Dep)) (st st' : St),
      walkDeps go deps st = .ok st' → GpSound idx st st' := by
  intro deps
  induction deps with
  | nil =>
    intro st st' h
    obtain rfl := Except.ok.inj h
    exact GpSound_refl idx st
  | cons e rest ih =>
    obtain ⟨key, dv⟩ := e
    intro st st' h
    unfold walkDeps at h
    cases hstep : (match depIdOf key dv with
                   | some d => go d st
                   | none => Except.ok st) with
    | error e' => rw [hstep] at h; simp at h
    | ok st1 =>
      rw [hstep] at h
      simp only [] at h
      have hsound1 : GpSound idx st st1 := by
        cases hd : depIdOf key dv with
        | some d => rw [hd] at hstep; exact hgo d st st1 hstep
        | none =>
          rw [hd] at hstep
          obtain rfl := Except.ok.inj hstep
          exact GpSound_refl idx st
      exact GpSound_trans idx st st1 st' hsound1 (ih st1 st' h)

theorem gp_sound (idx : List (String × List Pkg)) : ∀ (fuel : Nat) (a : String) (st st' : St),
    get_package idx fuel a st = .ok st' → GpSound idx st st' := by
  intro fuel
  induction fuel with
  | zero => intro a st st' h; rw [get_package_zero] at h; simp at h
  | succ fuel ih =>
    intro a st st' h
    rw [get_package_succ] at h
    unfold getPackageStep at h
    by_cases hv : a ∈ st.visited
    · rw [if_pos hv] at h
      obtain rfl := Except.ok.inj h
      exact GpSound_refl idx st
    · rw [if_neg hv] at h
      cases hlk : lookupIndex idx a with
      | none => rw [hlk] at h; simp at h
      | some vs =>
        rw [hlk] at h
        simp only [] at h
        cases hfst : first vs langOk with
        | none => rw [hfst] at h; simp at h
        | some p =>
          rw [hfst] at h
          simp only [] at h
          cases hwalk : walkDeps (get_package idx fuel) (p.dependencies.getD []) st with
          | error e => rw [hwalk] at h; simp at h
          | ok st1 =>
            rw [hwalk] at h
            simp only [] at h
            have hsoundw : GpSound idx st st1 :=
              walkDeps_sound idx (get_package idx fuel) ih (p.dependencies.getD []) st st1 hwalk
            by_cases hvx : isVsix p = true
            · rw [if_pos hvx] at h
              obtain rfl := Except.ok.inj h
              have hvar : variantOf idx a = some p := by
                unfold variantOf
                rw [hlk]
                exact hfst
              refine GpSound_trans idx st st1 _ hsoundw
                ⟨⟨[pyLower p.id], rfl⟩, ⟨p.payloads.getD [], rfl⟩, ?_⟩
              intro q hq
              rcases List.mem_append.mp hq with hq1 | hq2
              · exact Or.inl hq1
              · refine Or.inr ⟨a, p, hvar, by simpa using hq2, hvx, ?_⟩
                intro pl hpl
                exact List.mem_append_right _ hpl
            · rw [if_neg hvx] at h
              obtain rfl := Except.ok.inj h
              exact hsoundw

theorem lookupIndex_mem : ∀ (idx : List (String × List Pkg)) (k : String) (vs : List Pkg),
    lookupIndex idx k = some vs → (k, vs) ∈ idx := by
  intro idx
  induction idx with
  | nil => intro k vs h; simp [lookupIndex] at h
  | cons e rest ih =>
    intro k vs h
    obtain ⟨k', vs'⟩ := e
    unfold lookupIndex at h
    by_cases hk : k' = k
    · rw [if_pos hk] at h
      obtain rfl := Option.some.inj h
      subst hk
      exact List.mem_cons_self _ _
    · rw [if_neg hk] at h
      exact List.mem_cons_of_mem _ (ih k vs h)

/-- Claim C9: (i) on any successful call, every id in the final visited list
was either already visited or is the lowercased id of a selected variant that
has a payloads key, has type `"Vsix"`, and whose payloads are all in the
download log by the time the id was appended (the append happens only after
the payload loop); (ii) for an unvisited package whose selected variant lacks
a payloads key or is not of type `"Vsix"`, the call is exactly the walk of
its dependency map -- nothing is marked, so every later arrival at the id
re-traverses the map; (iii) in a well-formed index such a package id is never
in the visited list after any successful call that did not start with it
visited. -/
theorem c9_visited_only_vsix :
    (∀ (idx : List (String × List Pkg)) (fuel : Nat) (a : String) (st st' : St),
      get_package idx fuel a st = .ok st' →
      ∀ q ∈ st'.visited, q ∈ st.visited
        ∨ ∃ b r, variantOf idx b = some r ∧ q = pyLower r.id ∧ isVsix r = true
            ∧ ∀ pl ∈ r.payloads.getD [], pl ∈ st'.downloads)
    ∧ (∀ (idx : List (String × List Pkg)) (fuel : Nat) (a : String) (st : St) (p : Pkg),
        a ∉ st.visited → variantOf idx a = some p → isVsix p = false →
        get_package idx (fuel + 1) a st
          = walkDeps (get_package idx fuel) (p.dependencies.getD []) st)
    ∧ (∀ (idx : List (String × List Pkg)) (fuel : Nat) (a : String) (st st' : St) (p : Pkg),
        (∀ e ∈ idx, ∀ r ∈ e.2, pyLower r.id = e.1) →
        a ∉ st.visited → variantOf idx a = some p → isVsix p = false →
        get_package idx fuel a st = .ok st' → a ∉ st'.visited) := by
  refine ⟨fun idx fuel a st st' h => (gp_sound idx fuel a st st' h).2.2, ?_, ?_⟩
  · intro idx fuel a st p hnv hvar hnvsix
    have hx : ∃ vs, lookupIndex idx a = some vs ∧ first vs langOk = some p := by
      unfold variantOf at hvar
      cases hlk : lookupIndex idx a with
      | none => rw [hlk] at hvar; simp at hvar
      | some vs =>
        rw [hlk] at hvar
        exact ⟨vs, rfl, hvar⟩
    obtain ⟨vs, hlk, hfst⟩ := hx
    rw [get_package_succ]
    unfold getPackageStep
    simp only [if_neg hnv, hlk, hfst]
    cases hw : walkDeps (get_package idx fuel) (p.dependencies.getD []) st with
    | error e => simp
    | ok st1 => simp [hnvsix]
  · intro idx fuel a st st' p hwf hnv hvar hnvsix hok hmem
    rcases (gp_sound idx fuel a st st' hok).2.2 a hmem with h1 | ⟨b, r, hvarb, hid, hvsix, -⟩
    · exact hnv h1
    · unfold variantOf at hvarb
      cases hlk : lookupIndex idx b with
      | none => rw [hlk] at hvarb; simp at hvarb
      | some vs =>
        rw [hlk] at hvarb
        have hfst : first vs langOk = some r := hvarb
        have hrmem : r ∈ vs := List.mem_of_find?_eq_some hfst
        have hb : pyLower r.id = b := hwf (b, vs) (lookupIndex_mem idx b vs hlk) r hrmem
        rw [hid, hb] at hvar
        unfold variantOf at hvar
        rw [hlk] at hvar
        have hp : first vs langOk = some p := hvar
        rw [hfst] at hp
        obtain rfl := Option.some.inj hp
        rw [hvsix] at hnvsix
        exact Bool.false_ne_true hnvsix.symm

/-! ## Claim C9, witness -/

/-- Witness for C9 at a concrete record with no `Vsix` payload. -/
theorem c9_witness :
    (get_package (buildIndex [⟨"c", none, "Msi", none, none⟩]) (1 + 1) "c" ⟨[], []⟩
      = walkDeps (get_package (buildIndex [⟨"c", none, "Msi", none, none⟩]) 1)
          (((⟨"c", none, "Msi", none, none⟩ : Pkg).dependencies).getD []) ⟨[], []⟩)
    ∧ "c" ∉ (⟨[], []⟩ : St).visited :=
  ⟨c9_visited_only_vsix.2.1 (buildIndex [⟨"c", none, "Msi", none, none⟩]) 1 "c" ⟨[], []⟩
      ⟨"c", none, "Msi", none, none⟩ (by decide) (by decide) (by decide),
   c9_visited_only_vsix.2.2 (buildIndex [⟨"c", none, "Msi", none, none⟩]) 5 "c" ⟨[], []⟩
      ⟨[], []⟩ ⟨"c", none, "Msi", none, none⟩ (by decide) (by decide) (by decide) (by decide)
      (by decide)⟩

/-! ## Claim C1: cycles make the walk die, acyclic graphs resolve -/

theorem variantOf_eq_some (idx : List (String × List Pkg)) (a : String) (p : Pkg)
    (h : variantOf idx a = some p) :
    ∃ vs, lookupIndex idx a = some vs ∧ first vs langOk = some p := by
  unfold variantOf at h
  cases hlk : lookupIndex idx a with
  | none => rw [hlk] at h; simp at h
  | some vs =>
    rw [hlk] at h
    exact ⟨vs, rfl, h⟩

theorem rank_antitone (idx : List (String × List Pkg)) (rank : String → Nat)
    (HR : ∀ a b, EdgeR idx a b → rank b < rank a) :
    ∀ a b, Reach idx a b → rank b ≤ rank a := by
  intro a b h
  induction h with
  | refl => exact le_refl _
  | tail _ h2 ih => exact le_trans (le_of_lt (HR _ _ h2)) ih

/-- On the two-package cycle, `get_package` exhausts every recursion-depth
budget: the visited check never fires because the post-order append is never
reached, so the walk bounces between `a` and `b` until the stack dies. -/
theorem cyc_nonterm : ∀ fuel : Nat,
    get_package cycIdx fuel "a" ⟨[], []⟩ = .error .stackOverflow
    ∧ get_package cycIdx fuel "b" ⟨[], []⟩ = .error .stackOverflow := by
  intro fuel
  induction fuel with
  | zero => exact ⟨rfl, rfl⟩
  | succ fuel ih =>
    constructor
    · rw [get_package_succ]
      show (match walkDeps (get_package cycIdx fuel) [("b", Dep.verStr "1")] ⟨[], []⟩ with
            | .error e => (.error e : Except GErr St)
            | .ok st1 => .ok ⟨st1.visited ++ ["a"], st1.downloads ++ [(⟨"u", "s", "f"⟩ : Payload)]⟩)
          = .error .stackOverflow
      have hw : walkDeps (get_package cycIdx fuel) [("b", Dep.verStr "1")] ⟨[], []⟩
          = match get_package cycIdx fuel "b" ⟨[], []⟩ with
            | .error e => .error e
            | .ok st' => walkDeps (get_package cycIdx fuel) [] st' := rfl
      rw [hw, ih.2]
    · rw [get_package_succ]
      show (match walkDeps (get_package cycIdx fuel) [("a", Dep.verStr "1")] ⟨[], []⟩ with
            | .error e => (.error e : Except GErr St)
            | .ok st1 => .ok ⟨st1.visited ++ ["b"], st1.downloads ++ [(⟨"v", "t", "g"⟩ : Payload)]⟩)
          = .error .stackOverflow
      have hw : walkDeps (get_package cycIdx fuel) [("a", Dep.verStr "1")] ⟨[], []⟩
          = match get_package cycIdx fuel "a" ⟨[], []⟩ with
            | .error e => .error e
            | .ok st' => walkDeps (get_package cycIdx fuel) [] st' := rfl
      rw [hw, ih.1]

/-- Claim C1, counterexample: on the cyclic graph where `a` depends on `b`
and `b` depends on `a` (2 distinct ids), resolving from `a` has not
terminated after 1000 recursion steps -- the recursion-depth budget is
exhausted instead (Python's `RecursionError`), so the traversal does not
terminate in O(number of distinct ids) steps and returns no closure at
all. -/
theorem c1_counterexample :
    get_package cycIdx 1000 "a" ⟨[], []⟩ = .error .stackOverflow :=
  (cyc_nonterm 1000).1

/-- Correctness of the dependency-loop under a rank function that decreases
along edges: the loop succeeds, extends the visited list, the new ids are
exactly reachable-through-some-dependency `Vsix` ids, every `Vsix` id
reachable through a walked dependency ends up visited, and the no-duplicates
and closedness invariants are maintained. -/
theorem walk_main (idx : List (String × List Pkg)) (rank : String → Nat)
    (HR : ∀ a b, EdgeR idx a b → rank b < rank a)
    (fuel : Nat)
    (IH : ∀ (a : String) (st : St), rank a < fuel →
      (∀ q, Reach idx a q → (variantOf idx q).isSome) →
      st.visited.Nodup → ClosedV idx st.visited →
      ∃ st', get_package idx fuel a st = .ok st'
        ∧ (∃ t, st'.visited = st.visited ++ t)
        ∧ (∀ q ∈ st'.visited, q ∈ st.visited ∨ (Reach idx a q ∧ VsixAt idx q))
        ∧ (∀ q, Reach idx a q → VsixAt idx q → q ∈ st'.visited)
        ∧ st'.visited.Nodup ∧ ClosedV idx st'.visited)
    (a : String) (p : Pkg) (hvp : variantOf idx a = some p)
    (hranka : rank a < fuel + 1)
    (hvarReach : ∀ q, Reach idx a q → (variantOf idx q).isSome) :
    ∀ (deps : List (String × Dep)),
      (∀ e ∈ deps, ∀ d, depIdOf e.1 e.2 = some d → d ∈ depIds p) →
      ∀ st : St, st.visited.Nodup → ClosedV idx st.visited →
      ∃ st2, walkDeps (get_package idx fuel) deps st = .ok st2
        ∧ (∃ t, st2.visited = st.visited ++ t)
        ∧ (∀ q ∈ st2.visited, q ∈ st.visited ∨ ∃ d ∈ depIds p, Reach idx d q ∧ VsixAt idx q)
        ∧ (∀ e ∈ deps, ∀ d, depIdOf e.1 e.2 = some d →
            ∀ q, Reach idx d q → VsixAt idx q → q ∈ st2.visited)
        ∧ st2.visited.Nodup ∧ ClosedV idx st2.visited := by
  intro deps
  induction deps with
  | nil =>
    intro _ st hnd hcl
    refine ⟨st, rfl, ⟨[], by simp⟩, fun q hq => Or.inl hq, ?_, hnd, hcl⟩
    intro e he
    simp at he
  | cons e rest ih =>
    obtain ⟨key, dv⟩ := e
    intro hsub st hnd hcl
    cases hd : depIdOf key dv with
    | none =>
      obtain ⟨st2, hok2, hext2, hsound2, hcomp2, hnd2, hcl2⟩ :=
        ih (fun e' he' d' hd' => hsub e' (List.mem_cons_of_mem _ he') d' hd') st hnd hcl
      have hw : walkDeps (get_package idx fuel) ((key, dv) :: rest) st
          = walkDeps (get_package idx fuel) rest st := by
        simp only [walkDeps, hd]
      refine ⟨st2, by rw [hw]; exact hok2, hext2, hsound2, ?_, hnd2, hcl2⟩
      intro e' he' d' hd' q hreach hvsix
      rcases List.mem_cons.mp he' with heq | he'
      · rw [heq] at hd'
        simp only at hd'
        rw [hd] at hd'
        cases hd'
      · exact hcomp2 e' he' d' hd' q hreach hvsix
    | some d =>
      have hdin : d ∈ depIds p := hsub (key, dv) (by simp) d hd
      have hedge : EdgeR idx a d := ⟨p, hvp, hdin⟩
      have hrankd : rank d < fuel := by
        have := HR a d hedge
        omega
      have hvarReachd : ∀ q, Reach idx d q → (variantOf idx q).isSome := fun q hq =>
        hvarReach q (Relation.ReflTransGen.trans (Relation.ReflTransGen.single hedge) hq)
      obtain ⟨st1, hok1, ⟨t1, ht1⟩, hsound1, hcomp1, hnd1, hcl1⟩ :=
        IH d st hrankd hvarReachd hnd hcl
      obtain ⟨st2, hok2, ⟨t2, ht2⟩, hsound2, hcomp2, hnd2, hcl2⟩ :=
        ih (fun e' he' d' hd' => hsub e' (List.mem_cons_of_mem _ he') d' hd') st1 hnd1 hcl1
      have hw : walkDeps (get_package idx fuel) ((key, dv) :: rest) st
          = walkDeps (get_package idx fuel) rest st1 := by
        simp only [walkDeps, hd, hok1]
      refine ⟨st2, by rw [hw]; exact hok2,
        ⟨t1 ++ t2, by rw [ht2, ht1, List.append_assoc]⟩, ?_, ?_, hnd2, hcl2⟩
      · intro q hq
        rcases hsound2 q hq with hq1 | ⟨d', hd', hreach, hvsix⟩
        · rcases hsound1 q hq1 with hq0 | ⟨hreach, hvsix⟩
          · exact Or.inl hq0
          · exact Or.inr ⟨d, hdin, hreach, hvsix⟩
        · exact Or.inr ⟨d', hd', hreach, hvsix⟩
      · intro e' he' d' hd' q hreach hvsix
        rcases List.mem_cons.mp he' with heq | he'
        · rw [heq] at hd'
          simp only at hd'
          rw [hd] at hd'
          obtain rfl := Option.some.inj hd'
          have hq1 := hcomp1 q hreach hvsix
          rw [ht2]
          exact List.mem_append_left _ hq1
        · exact hcomp2 e' he' d' hd' q hreach hvsix

/-- Main invariant of `get_package` on graphs admitting a rank function that
decreases along dependency edges (acyclicity): with a recursion budget above
the root's rank, the call succeeds, only appends to the visited list, the new
ids are exactly the reachable ids whose selected variant reaches the
extraction stage, and the list stays duplicate-free and closed. -/
theorem gp_main (idx : List (String × List Pkg)) (rank : String → Nat)
    (HR : ∀ a b, EdgeR idx a b → rank b < rank a)
    (HW : ∀ k vs, lookupIndex idx k = some vs → ∀ r ∈ vs, pyLower r.id = k) :
    ∀ (fuel : Nat) (a : String) (st : St),
      rank a < fuel →
      (∀ q, Reach idx a q → (variantOf idx q).isSome) →
      st.visited.Nodup → ClosedV idx st.visited →
      ∃ st', get_package idx fuel a st = .ok st'
        ∧ (∃ t, st'.visited = st.visited ++ t)
        ∧ (∀ q ∈ st'.visited, q ∈ st.visited ∨ (Reach idx a q ∧ VsixAt idx q))
        ∧ (∀ q, Reach idx a q → VsixAt idx q → q ∈ st'.visited)
        ∧ st'.visited.Nodup ∧ ClosedV idx st'.visited := by
  intro fuel
  induction fuel with
  | zero => intro a st hr; omega
  | succ fuel ih =>
    intro a st hrank hvarReach hnd hcl
    by_cases hv : a ∈ st.visited
    · refine ⟨st, ?_, ⟨[], by simp⟩, fun q hq => Or.inl hq, ?_, hnd, hcl⟩
      · rw [get_package_succ]
        unfold getPackageStep
        rw [if_pos hv]
      · intro q hreach hvsix
        exact hcl a hv q hreach hvsix
    · have hsome : (variantOf idx a).isSome := hvarReach a Relation.ReflTransGen.refl
      obtain ⟨p, hvp⟩ := Option.isSome_iff_exists.mp hsome
      obtain ⟨vs, hlk, hfst⟩ := variantOf_eq_some idx a p hvp
      obtain ⟨st2, hwalk, ⟨t2, ht2⟩, hsound2, hcomp2, hnd2, hcl2⟩ :=
        walk_main idx rank HR fuel ih a p hvp hrank hvarReach (p.dependencies.getD [])
          (fun e he d hd => List.mem_filterMap.mpr ⟨e, he, hd⟩) st hnd hcl
      by_cases hvx : isVsix p = true
      · have haid : pyLower p.id = a := HW a vs hlk p (List.mem_of_find?_eq_some hfst)
        have hrun : get_package idx (fuel + 1) a st
            = .ok ⟨st2.visited ++ [pyLower p.id], st2.downloads ++ p.payloads.getD []⟩ := by
          rw [get_package_succ]
          unfold getPackageStep
          simp only [if_neg hv, hlk, hfst, hwalk, if_pos hvx]
        have hVsixa : VsixAt idx a := ⟨p, hvp, hvx⟩
        have hanotin2 : a ∉ st2.visited := by
          intro hmem
          rcases hsound2 a hmem with h1 | ⟨d, hd, hreach, -⟩
          · exact hv h1
          · have h2 := rank_antitone idx rank HR d a hreach
            have h3 := HR a d ⟨p, hvp, hd⟩
            omega
        have hfull : ∀ q, Reach idx a q → VsixAt idx q → q ∈ st2.visited ++ [pyLower p.id] := by
          intro q hreach hvsix
          rcases Relation.ReflTransGen.cases_head hreach with heq | ⟨c, hedge, hreach'⟩
          · rw [← heq, haid]
            exact List.mem_append_right _ (by simp)
          · obtain ⟨p', hvp', hcdep⟩ := hedge
            rw [hvp] at hvp'
            obtain rfl := Option.some.inj hvp'
            obtain ⟨e, he, heq⟩ := List.mem_filterMap.mp hcdep
            have := hcomp2 e he c heq q hreach' hvsix
            exact List.mem_append_left _ this
        refine ⟨⟨st2.visited ++ [pyLower p.id], st2.downloads ++ p.payloads.getD []⟩, hrun,
          ⟨t2 ++ [pyLower p.id], by
            show st2.visited ++ [pyLower p.id] = st.visited ++ (t2 ++ [pyLower p.id])
            rw [ht2, List.append_assoc]⟩, ?_, hfull, ?_, ?_⟩
        · intro q hq
          rcases List.mem_append.mp hq with hq2 | hq1
          · rcases hsound2 q hq2 with h1 | ⟨d, hd, hreach, hvsix⟩
            · exact Or.inl h1
            · exact Or.inr ⟨Relation.ReflTransGen.trans
                (Relation.ReflTransGen.single ⟨p, hvp, hd⟩) hreach, hvsix⟩
          · have hqa : q = a := by
              rw [haid] at hq1
              simpa using hq1
            subst hqa
            exact Or.inr ⟨Relation.ReflTransGen.refl, hVsixa⟩
        · show (st2.visited ++ [pyLower p.id]).Nodup
          rw [haid]
          refine List.Nodup.append hnd2 (List.nodup_singleton a) ?_
          intro x hx hx1
          rw [List.mem_singleton] at hx1
          subst hx1
          exact hanotin2 hx
        · intro x hx q hreach hvsix
          rcases List.mem_append.mp hx with hx2 | hx1
          · exact List.mem_append_left _ (hcl2 x hx2 q hreach hvsix)
          · have hxa : x = a := by
              rw [haid] at hx1
              simpa using hx1
            subst hxa
            exact hfull q hreach hvsix
      · have hrun : get_package idx (fuel + 1) a st = .ok st2 := by
          rw [get_package_succ]
          unfold getPackageStep
          simp only [if_neg hv, hlk, hfst, hwalk]
          simp [hvx]
        refine ⟨st2, hrun, ⟨t2, ht2⟩, ?_, ?_, hnd2, hcl2⟩
        · intro q hq
          rcases hsound2 q hq with h1 | ⟨d, hd, hreach, hvsix⟩
          · exact Or.inl h1
          · exact Or.inr ⟨Relation.ReflTransGen.trans
              (Relation.ReflTransGen.single ⟨p, hvp, hd⟩) hreach, hvsix⟩
        · intro q hreach hvsix
          rcases Relation.ReflTransGen.cases_head hreach with heq | ⟨c, hedge, hreach'⟩
          · exfalso
            obtain ⟨p', hvp', hpx⟩ := hvsix
            rw [← heq, hvp] at hvp'
            obtain rfl := Option.some.inj hvp'
            exact hvx hpx
          · obtain ⟨p', hvp', hcdep⟩ := hedge
            rw [hvp] at hvp'
            obtain rfl := Option.some.inj hvp'
            obtain ⟨e, he, heq2⟩ := List.mem_filterMap.mp hcdep
            exact hcomp2 e he c heq2 q hreach' hvsix

/-- Claim C1, amended: the walk tolerates no cycles (see the counterexample),
but on every dependency graph that admits a rank function strictly decreasing
along dependency edges (equivalently, an acyclic graph), and whose reachable
ids all have a selectable variant, resolution from the root terminates within
a recursion depth of the root's rank plus one, and the resulting
`already_gotten_packages` list is duplicate-free and equal -- as a set -- to
the set of ids reachable from the root whose selected variant has a payloads
key and type `"Vsix"`; reachable ids without such a payload are walked but
never enter the list. -/
theorem c1_amended : ∀ (records : List Pkg) (rank : String → Nat) (root : String),
    (∀ e ∈ buildIndex records, ∀ r ∈ e.2, ∀ d ∈ depIds r, rank d < rank e.1) →
    (variantOf (buildIndex records) root).isSome →
    (∀ e ∈ buildIndex records, ∀ r ∈ e.2, ∀ d ∈ depIds r,
      (variantOf (buildIndex records) d).isSome) →
    ∃ st', get_package (buildIndex records) (rank root + 1) root ⟨[], []⟩ = .ok st'
      ∧ st'.visited.Nodup
      ∧ ∀ q, q ∈ st'.visited
          ↔ Reach (buildIndex records) root q ∧ VsixAt (buildIndex records) q := by
  intro records rank root hrankF hroot hvarF
  have HW : ∀ k vs, lookupIndex (buildIndex records) k = some vs →
      ∀ r ∈ vs, pyLower r.id = k := by
    intro k vs hlk r hr
    rw [buildIndex_lookup] at hlk
    by_cases hf : records.filter (fun p => pyLower p.id = k) = []
    · rw [if_pos hf] at hlk
      cases hlk
    · rw [if_neg hf] at hlk
      obtain rfl := Option.some.inj hlk
      have := List.mem_filter.mp hr
      simpa using this.2
  have HR : ∀ a b, EdgeR (buildIndex records) a b → rank b < rank a := by
    rintro a b ⟨p, hvp, hb⟩
    obtain ⟨vs, hlk, hfst⟩ := variantOf_eq_some _ a p hvp
    exact hrankF (a, vs) (lookupIndex_mem _ a vs hlk) p (List.mem_of_find?_eq_some hfst) b hb
  have HVar : ∀ q, Reach (buildIndex records) root q →
      (variantOf (buildIndex records) q).isSome := by
    intro q hq
    induction hq with
    | refl => exact hroot
    | tail _ h2 _ =>
      obtain ⟨p, hvp, hb⟩ := h2
      obtain ⟨vs, hlk, hfst⟩ := variantOf_eq_some _ _ p hvp
      exact hvarF (_, vs) (lookupIndex_mem _ _ vs hlk) p (List.mem_of_find?_eq_some hfst) _ hb
  have hcl0 : ClosedV (buildIndex records) ([] : List String) := by
    intro x hx
    simp at hx
  obtain ⟨st', hok, -, hsound, hcomp, hnd, -⟩ :=
    gp_main (buildIndex records) rank HR HW (rank root + 1) root ⟨[], []⟩ (by omega) HVar
      (by simp) hcl0
  refine ⟨st', hok, hnd, ?_⟩
  intro q
  constructor
  · intro hq
    rcases hsound q hq with h1 | h2
    · simp at h1
    · exact h2
  · rintro ⟨hreach, hvsix⟩
    exact hcomp q hreach hvsix

/-- Witness for C1 (amended) on the concrete acyclic two-package graph. -/
theorem c1_witness :
    ∃ st', get_package (buildIndex [dagA, dagB])
        ((fun s => if s = "a" then 1 else 0) "a" + 1) "a" ⟨[], []⟩ = .ok st'
      ∧ st'.visited.Nodup
      ∧ ∀ q, q ∈ st'.visited
          ↔ Reach (buildIndex [dagA, dagB]) "a" q ∧ VsixAt (buildIndex [dagA, dagB]) q :=
  c1_amended [dagA, dagB] (fun s => if s = "a" then 1 else 0) "a"
    (by decide) (by decide) (by decide)
